import Mathlib

/-!
Shallow embedding of `acgnai-remove-unneed.py` (`strict_filter_json`):
a two-stage curation pipeline over a JSON mapping from keys to
character-metadata records.  Stage one merges records whose keys share a
canonical identity (the key with every `_ZH` occurrence removed), giving
priority to keys ending in `_ZH`; stage two filters records by emotion
count, a tag-substring blacklist and a name exact-match blacklist.

The input mapping is modelled as an insertion-ordered association list
(Python dicts preserve insertion order and have unique keys).  Python
string operations used by the script (`endswith`, `replace`, `split`,
`lower`, substring `in`, `len`) are modelled structurally on `List Char`
so that all definitions evaluate by `decide`/`rfl`.  A Python `TypeError`
raised by `len` on an unsized value aborts the whole run; fallibility is
modelled with `Option`.
-/

/-- JSON-decodable Python values, as far as the script inspects them
(numbers only matter by shape, so they are carried as `Int`). -/
inductive PyVal where
  | vnull : PyVal
  | vbool : Bool → PyVal
  | vint : Int → PyVal
  | vstr : String → PyVal
  | vlist : List PyVal → PyVal
  | vdict : List (String × PyVal) → PyVal

/-- A character-metadata record.  The script only ever reads or writes the
`tags` and `emotion` fields; every other field is opaque and carried in
`rest`.  `none` models an absent field. -/
structure Record where
  tags : Option (List String)
  emotion : Option PyVal
  rest : List (String × PyVal)

/-- Python `len`: defined for strings, lists and dicts; `none` models the
`TypeError` raised on other shapes. -/
def pyLen : PyVal → Option Nat
  | .vstr s => some s.length
  | .vlist xs => some xs.length
  | .vdict kvs => some kvs.length
  | _ => none

/-- Python `str.replace("_ZH", "")` on the character list: delete every
leftmost non-overlapping occurrence of `_ZH`. -/
def stripZH : List Char → List Char
  | [] => []
  | '_' :: 'Z' :: 'H' :: rest => stripZH rest
  | c :: rest => c :: stripZH rest

/-- `key.replace("_ZH", "")` (line 56 / line 112 of the source). -/
def baseName (k : String) : String := ⟨stripZH k.toList⟩

/-- Python `key.endswith('_ZH')` (line 44 of the source). -/
def endsWithZH (k : String) : Bool :=
  match k.toList.reverse with
  | 'H' :: 'Z' :: '_' :: _ => true
  | _ => false

/-- Python `str.lower()` (ASCII range, the only cased characters the
script's language markers contain). -/
def pyLower (s : String) : String := ⟨s.toList.map Char.toLower⟩

/-- Python substring test `needle in hay`. -/
def pyContains (hay needle : String) : Bool :=
  hay.toList.tails.any fun t => needle.toList.isPrefixOf t

/-- Python `key.split('-')`: split at every dash, keeping empties. -/
def splitDash : List Char → List (List Char)
  | [] => [[]]
  | '-' :: rest => [] :: splitDash rest
  | c :: rest =>
    match splitDash rest with
    | [] => [[c]]
    | g :: gs => (c :: g) :: gs

/-- `key.split('-')[-1].replace("_ZH", "")` (line 112 of the source). -/
def namePart (k : String) : String :=
  ⟨stripZH ((splitDash k.toList).getLastD [])⟩

/-- `MIN_EMOTION_COUNT` (line 21 of the source). -/
def MIN_EMOTION_COUNT : Nat := 6

/-- `BANNED_TAGS` (lines 25-29 of the source). -/
def BANNED_TAGS : List String :=
  ["普通", "平民", "龙套", "龍套", "路人", "村民",
   "士兵", "卫兵", "守卫", "男", "女",
   "怪物", "生物", "纯水精灵", "元素生命", "丘丘人"]

/-- `BANNED_NAMES` (lines 32-34 of the source). -/
def BANNED_NAMES : List String :=
  ["NPC", "系统", "旁白", "未知", "大叔", "小孩", "少女"]

/-- The language-exclusion markers (line 53 of the source). -/
def LANG_EXCLUDE : List String :=
  ["_en", "_ja", "english", "japanese", "英语", "日语"]

/-- Line 52-53 of the source: `any(x in key_lower for x in [...])` with
`key_lower = str(key).lower()`. -/
def langExcluded (key : String) : Bool :=
  LANG_EXCLUDE.any fun x => pyContains (pyLower key) x

/-- `value.get('tags', [])`: the record's tags, empty when absent. -/
def tagList (r : Record) : List String := r.tags.getD []

/-- `list(set(a) | set(b))` (line 65 of the source): the set union of two
tag lists, represented as the duplicate-free concatenation (Python's set
iteration order is arbitrary; every claim compares tags as sets). -/
def tagUnion (a b : List String) : List String := (a ++ b).dedup

/-- Line 65-66 of the source: the stored record with its `tags` field
replaced by the union of its own tags and the incoming tags.  No other
field is touched. -/
def mergeRec (r : Record) (ts : List String) : Record :=
  { r with tags := some (tagUnion (tagList r) ts) }

/-- `merged_data[existing_key]['tags'] = list(new_tags)`: update the
record stored under `ek` in place, leaving keys and all other records
unchanged. -/
def updateTags : List (String × Record) → String → List String → List (String × Record)
  | [], _, _ => []
  | (k, r) :: rest, ek, ts =>
    (k, if k = ek then mergeRec r ts else r) :: updateTags rest ek ts

/-- Python dict lookup on an association list (first match). -/
def lookupStr {α : Type} (k : String) : List (String × α) → Option α
  | [] => none
  | (k', v) :: rest => if k = k' then some v else lookupStr k rest

/-- Line 44 of the source: `sorted(data.keys(), key=lambda k: 1 if
k.endswith('_ZH') else 2)` — a stable two-way sort, realised as the
`_ZH`-ending pairs followed by the others, each group in input order. -/
def sortPairs (data : List (String × Record)) : List (String × Record) :=
  data.filter (fun p => endsWithZH p.1) ++ data.filter (fun p => !endsWithZH p.1)

/-- The merge loop of lines 48-70 of the source.  `tm` is `temp_map`
(`base_name → full_key`), `md` is `merged_data`; both start empty.  A key
matching the language-exclusion list is skipped; otherwise, if its base
name was already seen the stored record's tags are unioned with the
current record's tags, else the current pair is appended verbatim. -/
def mergeAux : List (String × Record) → List (String × String) →
    List (String × Record) → List (String × Record)
  | [], _, md => md
  | (k, v) :: rest, tm, md =>
    if langExcluded k then mergeAux rest tm md
    else
      match lookupStr (baseName k) tm with
      | some ek => mergeAux rest tm (updateTags md ek (tagList v))
      | none => mergeAux rest ((baseName k, k) :: tm) (md ++ [(k, v)])

/-- Stage one (lines 39-70 of the source): the merged mapping. -/
def mergeStage (data : List (String × Record)) : List (String × Record) :=
  mergeAux (sortPairs data) [] []

/-- Lines 82-88 of the source: the coverage count `len(emotions)` after
the shape coercion.  An absent field defaults to `[]`; a non-empty dict is
replaced by its first value; `none` models the `TypeError` that `len`
raises on an unsized shape. -/
def emotionCount (e : Option PyVal) : Option Nat :=
  let e0 := e.getD (.vlist [])
  let e1 :=
    match e0 with
    | .vdict [] => .vlist []
    | .vdict (p :: _) => p.2
    | other => other
  pyLen e1

/-- Lines 94-102 of the source: some tag on the record contains some
banned substring. -/
def tagBanned (v : Record) : Bool :=
  (tagList v).any fun tag => BANNED_TAGS.any fun b => pyContains tag b

/-- Lines 108-116 of the source: the derived name part exactly equals a
blacklisted name. -/
def nameBanned (key : String) : Bool :=
  BANNED_NAMES.any fun bn => bn == namePart key

/-- One iteration of the filter loop (lines 79-121 of the source):
`some true` means the record is kept, `some false` that some criterion
dropped it (`continue`), `none` that the emotion-count coercion raised. -/
def recordPasses (key : String) (v : Record) : Option Bool :=
  match emotionCount v.emotion with
  | none => none
  | some n =>
    if n < MIN_EMOTION_COUNT then some false
    else if tagBanned v then some false
    else if nameBanned key then some false
    else some true

/-- Stage two (lines 77-121 of the source): keep exactly the records that
pass all three criteria, in order; `none` models a `TypeError` aborting
the whole run before any output is written. -/
def filterStage : List (String × Record) → Option (List (String × Record))
  | [] => some []
  | (k, v) :: rest =>
    match recordPasses k v with
    | none => none
    | some b =>
      match filterStage rest with
      | none => none
      | some out => some (if b then (k, v) :: out else out)

/-- The full pipeline `strict_filter_json` (minus file I/O): merge, then
filter. -/
def pipeline (data : List (String × Record)) : Option (List (String × Record)) :=
  filterStage (mergeStage data)

/-! ### Concrete values used to instantiate the theorems -/

/-- An emotion list of length `n` (only the length is inspected). -/
def emoN (n : Nat) : PyVal := .vlist (List.replicate n .vnull)

def recEx1 : Record := { tags := some ["x"], emotion := some (emoN 6), rest := [] }

def recEx2 : Record := { tags := some ["y"], emotion := some (emoN 0), rest := [] }

def recTag1 : Record := { tags := some ["a", "b"], emotion := some (emoN 6), rest := [] }

def recTag2 : Record := { tags := some ["b", "c"], emotion := some (emoN 6), rest := [] }

def recEmo5 : Record := { tags := none, emotion := some (emoN 5), rest := [] }

def recEmo6 : Record := { tags := none, emotion := some (emoN 6), rest := [] }

/-- A record whose `emotion` field is (malformedly) a string. -/
def recStr : Record := { tags := none, emotion := some (.vstr "abcdef"), rest := [] }

/-- The spec's end-to-end example input: a marked and an unmarked variant
of the same identity. -/
def dataEnd2End : List (String × Record) := [("A_ZH", recEx1), ("A", recEx2)]

/-- The merged record of `dataEnd2End`. -/
def recMergedEx : Record :=
  { tags := some ["x", "y"], emotion := some (emoN 6), rest := [] }

/-- The pipeline output on `dataEnd2End`. -/
def outEx : List (String × Record) := [("A_ZH", recMergedEx)]

/-- Two keys differing only by an interior `_ZH` occurrence; neither ends
with `_ZH`. -/
def dataInterior : List (String × Record) := [("A_ZHB", recTag1), ("AB", recTag2)]

/-- A marked/unmarked pair of the same identity surrounded by an unrelated
extra record. -/
def dataThree : List (String × Record) :=
  [("X", recTag2), ("A_ZH", recEx1), ("A", recEx2)]

/-! ### Basic lemmas about the list-dictionary operations -/

theorem lookupStr_eq_none {α : Type} {k : String} :
    ∀ {l : List (String × α)}, lookupStr k l = none ↔ k ∉ l.map Prod.fst := by
  intro l
  induction l with
  | nil => simp [lookupStr]
  | cons p rest ih =>
    obtain ⟨k', v⟩ := p
    by_cases h : k = k' <;> simp [lookupStr, h, ih]

theorem lookupStr_eq_some_mem {α : Type} {k : String} {v : α} :
    ∀ {l : List (String × α)}, lookupStr k l = some v → k ∈ l.map Prod.fst := by
  intro l
  induction l with
  | nil => intro h; simp [lookupStr] at h
  | cons p rest ih =>
    obtain ⟨k', w⟩ := p
    intro hl
    by_cases h : k = k'
    · simp [h]
    · rw [lookupStr, if_neg h] at hl
      simp only [List.map_cons, List.mem_cons]
      exact Or.inr (ih hl)

theorem updateTags_map_fst {ek : String} {ts : List String} :
    ∀ {md : List (String × Record)},
      (updateTags md ek ts).map Prod.fst = md.map Prod.fst := by
  intro md
  induction md with
  | nil => rfl
  | cons p rest ih =>
    obtain ⟨k, r⟩ := p
    simp [updateTags, ih]

theorem updateTags_map_fst_fn {ek : String} {ts : List String} {β : Type}
    (f : String → β) :
    ∀ {md : List (String × Record)},
      (updateTags md ek ts).map (fun p => f p.1) = md.map (fun p => f p.1) := by
  intro md
  induction md with
  | nil => rfl
  | cons p rest ih =>
    obtain ⟨k, r⟩ := p
    simp [updateTags, ih]

theorem updateTags_pres {ek : String} {ts : List String}
    (Q : String × Record → Prop)
    (hQ : ∀ k r, Q (k, r) → Q (k, mergeRec r ts)) :
    ∀ {md : List (String × Record)}, (∀ q ∈ md, Q q) →
      ∀ q ∈ updateTags md ek ts, Q q := by
  intro md
  induction md with
  | nil => intro _ q hq; simp [updateTags] at hq
  | cons p rest ih =>
    obtain ⟨k, r⟩ := p
    intro hall q hq
    rw [updateTags, List.mem_cons] at hq
    rcases hq with hq | hq
    · subst hq
      by_cases h : k = ek
      · simpa [h] using hQ k r (hall (k, r) (List.mem_cons_self _ _))
      · simpa [h] using hall (k, r) (List.mem_cons_self _ _)
    · exact ih (fun q hq' => hall q (List.mem_cons_of_mem _ hq')) q hq

theorem nodup_map_inj {α β : Type} {l : List α} {f : α → β}
    (h : (l.map f).Nodup) :
    ∀ a ∈ l, ∀ b ∈ l, f a = f b → a = b := by
  induction l with
  | nil => intro a ha; simp at ha
  | cons x t ih =>
    rw [List.map_cons, List.nodup_cons] at h
    intro a ha b hb hfab
    rcases List.mem_cons.1 ha with ha | ha <;> rcases List.mem_cons.1 hb with hb | hb
    · rw [ha, hb]
    · exfalso
      apply h.1
      rw [ha] at hfab
      rw [hfab]
      exact List.mem_map_of_mem f hb
    · exfalso
      apply h.1
      rw [hb] at hfab
      rw [← hfab]
      exact List.mem_map_of_mem f ha
    · exact ih h.2 a ha b hb hfab

/-! ### Substring characterisation of `pyContains` -/

theorem isPrefixOf_iff_append :
    ∀ (p l : List Char), p.isPrefixOf l = true ↔ ∃ t, l = p ++ t := by
  intro p
  induction p with
  | nil => intro l; simp [List.isPrefixOf]
  | cons a p' ih =>
    intro l
    cases l with
    | nil => simp [List.isPrefixOf]
    | cons b l' =>
      simp only [List.isPrefixOf, Bool.and_eq_true, beq_iff_eq, ih l',
        List.cons_append]
      constructor
      · rintro ⟨rfl, t, rfl⟩; exact ⟨t, rfl⟩
      · rintro ⟨t, ht⟩
        injection ht with h1 h2
        exact ⟨h1.symm, t, h2⟩

theorem tails_any_isPrefixOf (p : List Char) :
    ∀ (l : List Char),
      (l.tails.any fun t => p.isPrefixOf t) = true ↔ ∃ s t, l = s ++ p ++ t := by
  intro l
  induction l with
  | nil =>
    simp only [List.tails, List.any_cons, List.any_nil, Bool.or_false,
      isPrefixOf_iff_append]
    constructor
    · rintro ⟨t, ht⟩
      exact ⟨[], t, by simpa using ht⟩
    · rintro ⟨s, t, hst⟩
      have hs : s = [] ∧ (p = [] ∧ t = []) := by
        simpa [List.append_eq_nil] using hst.symm
      exact ⟨[], by simp [hs.2.1]⟩
  | cons a l' ih =>
    simp only [List.tails, List.any_cons, Bool.or_eq_true, isPrefixOf_iff_append, ih]
    constructor
    · rintro (⟨t, ht⟩ | ⟨s, t, hst⟩)
      · exact ⟨[], t, by simpa using ht⟩
      · exact ⟨a :: s, t, by simp [hst]⟩
    · rintro ⟨s, t, hst⟩
      cases s with
      | nil => exact Or.inl ⟨t, by simpa using hst⟩
      | cons a' s' =>
        rw [List.cons_append, List.cons_append] at hst
        injection hst with h1 h2
        exact Or.inr ⟨s', t, h2⟩

theorem pyContains_iff (hay needle : String) :
    pyContains hay needle = true ↔
      ∃ s t : List Char, hay.toList = s ++ needle.toList ++ t := by
  exact tails_any_isPrefixOf needle.toList hay.toList

/-! ### Step lemmas for the merge loop -/

theorem mergeAux_cons_excl {k : String} {v : Record} {rest tm md}
    (hL : langExcluded k = true) :
    mergeAux ((k, v) :: rest) tm md = mergeAux rest tm md := by
  simp [mergeAux, hL]

theorem mergeAux_cons_upd {k : String} {v : Record} {rest tm md} {ek : String}
    (hL : langExcluded k = false) (hTm : lookupStr (baseName k) tm = some ek) :
    mergeAux ((k, v) :: rest) tm md =
      mergeAux rest tm (updateTags md ek (tagList v)) := by
  simp [mergeAux, hL, hTm]

theorem mergeAux_cons_new {k : String} {v : Record} {rest tm md}
    (hL : langExcluded k = false) (hTm : lookupStr (baseName k) tm = none) :
    mergeAux ((k, v) :: rest) tm md =
      mergeAux rest ((baseName k, k) :: tm) (md ++ [(k, v)]) := by
  simp [mergeAux, hL, hTm]

theorem updateTags_map_base {ek : String} {ts : List String} :
    ∀ {md : List (String × Record)},
      (updateTags md ek ts).map (fun p => baseName p.1) =
        md.map (fun p => baseName p.1) := by
  intro md
  induction md with
  | nil => rfl
  | cons p rest ih =>
    obtain ⟨k, r⟩ := p
    simp [updateTags, ih]

theorem updateTags_map_basePairs {ek : String} {ts : List String} :
    ∀ {md : List (String × Record)},
      (updateTags md ek ts).map (fun p => (baseName p.1, p.1)) =
        md.map (fun p => (baseName p.1, p.1)) := by
  intro md
  induction md with
  | nil => rfl
  | cons p rest ih =>
    obtain ⟨k, r⟩ := p
    simp [updateTags, ih]

/-- The merge loop's invariant: `temp_map` is exactly the reversed list of
`(base name, key)` pairs of `merged_data`. -/
theorem inv_map_fst {tm : List (String × String)} {md : List (String × Record)}
    (h1 : tm = (md.map fun p => (baseName p.1, p.1)).reverse) :
    tm.map Prod.fst = (md.map fun p => baseName p.1).reverse := by
  subst h1
  rw [List.map_reverse, List.map_map]
  rfl

theorem inv_step_new {k : String} {v : Record} {tm : List (String × String)}
    {md : List (String × Record)}
    (h1 : tm = (md.map fun p => (baseName p.1, p.1)).reverse) :
    (baseName k, k) :: tm =
      ((md ++ [(k, v)]).map fun p => (baseName p.1, p.1)).reverse := by
  rw [List.map_append, List.reverse_append]
  simp [h1]

/-- Bases already stored never disappear from the merge loop's output. -/
theorem mergeAux_base_mem :
    ∀ (pairs : List (String × Record)) (tm : List (String × String))
      (md : List (String × Record)) (b : String),
      b ∈ md.map (fun p => baseName p.1) →
      b ∈ (mergeAux pairs tm md).map (fun p => baseName p.1) := by
  intro pairs
  induction pairs with
  | nil => intro tm md b hb; simpa [mergeAux] using hb
  | cons pv rest ih =>
    obtain ⟨k, v⟩ := pv
    intro tm md b hb
    cases hL : langExcluded k with
    | true =>
      rw [mergeAux_cons_excl hL]
      exact ih tm md b hb
    | false =>
      cases hTm : lookupStr (baseName k) tm with
      | some ek =>
        rw [mergeAux_cons_upd hL hTm]
        exact ih _ _ b (by rwa [updateTags_map_base])
      | none =>
        rw [mergeAux_cons_new hL hTm]
        exact ih _ _ b (by rw [List.map_append]; exact List.mem_append_left _ hb)

/-- No two records of the merged mapping share a base name. -/
theorem mergeAux_nodup :
    ∀ (pairs : List (String × Record)) (tm : List (String × String))
      (md : List (String × Record)),
      tm = (md.map fun p => (baseName p.1, p.1)).reverse →
      ((md.map fun p => baseName p.1).Nodup) →
      (((mergeAux pairs tm md).map fun p => baseName p.1).Nodup) := by
  intro pairs
  induction pairs with
  | nil => intro tm md _ h2; simpa [mergeAux] using h2
  | cons pv rest ih =>
    obtain ⟨k, v⟩ := pv
    intro tm md h1 h2
    cases hL : langExcluded k with
    | true =>
      rw [mergeAux_cons_excl hL]
      exact ih tm md h1 h2
    | false =>
      cases hTm : lookupStr (baseName k) tm with
      | some ek =>
        rw [mergeAux_cons_upd hL hTm]
        exact ih _ _ (by rw [updateTags_map_basePairs]; exact h1)
          (by rwa [updateTags_map_base])
      | none =>
        rw [mergeAux_cons_new hL hTm]
        have hnotin : baseName k ∉ md.map fun p => baseName p.1 := by
          have h3 := lookupStr_eq_none.1 hTm
          rw [inv_map_fst h1] at h3
          simpa using h3
        refine ih _ _ (inv_step_new h1) ?_
        rw [List.map_append]
        simp [List.nodup_append, h2, hnotin]

/-- Every surviving input base name is represented in the merged mapping. -/
theorem mergeAux_covers :
    ∀ (pairs : List (String × Record)) (tm : List (String × String))
      (md : List (String × Record)),
      tm = (md.map fun p => (baseName p.1, p.1)).reverse →
      ∀ k v, (k, v) ∈ pairs → langExcluded k = false →
        baseName k ∈ (mergeAux pairs tm md).map fun p => baseName p.1 := by
  intro pairs
  induction pairs with
  | nil => intro tm md _ k v hmem; simp at hmem
  | cons pv rest ih =>
    obtain ⟨k0, v0⟩ := pv
    intro tm md h1 k v hmem hk
    rcases List.mem_cons.1 hmem with heq | hmem'
    · have hkk : k = k0 := congrArg Prod.fst heq
      subst hkk
      cases hTm : lookupStr (baseName k) tm with
      | some ek =>
        rw [mergeAux_cons_upd hk hTm]
        apply mergeAux_base_mem
        rw [updateTags_map_base]
        have h3 := lookupStr_eq_some_mem hTm
        rw [inv_map_fst h1] at h3
        simpa using h3
      | none =>
        rw [mergeAux_cons_new hk hTm]
        apply mergeAux_base_mem
        rw [List.map_append]
        simp
    · cases hL0 : langExcluded k0 with
      | true =>
        rw [mergeAux_cons_excl hL0]
        exact ih tm md h1 k v hmem' hk
      | false =>
        cases hTm : lookupStr (baseName k0) tm with
        | some ek =>
          rw [mergeAux_cons_upd hL0 hTm]
          exact ih _ _ (by rw [updateTags_map_basePairs]; exact h1) k v hmem' hk
        | none =>
          rw [mergeAux_cons_new hL0 hTm]
          exact ih _ _ (inv_step_new h1) k v hmem' hk

/-- Any property of key/record pairs that is preserved by the tag-union
update holds for every entry of the merged mapping, provided it holds for
every surviving input pair. -/
theorem mergeAux_pres (Q : String × Record → Prop)
    (hQ : ∀ k r ts, Q (k, r) → Q (k, mergeRec r ts)) :
    ∀ (pairs : List (String × Record)) (tm : List (String × String))
      (md : List (String × Record)),
      (∀ p ∈ pairs, langExcluded p.1 = false → Q p) →
      (∀ p ∈ md, Q p) →
      ∀ p ∈ mergeAux pairs tm md, Q p := by
  intro pairs
  induction pairs with
  | nil => intro tm md _ hmd p hp; exact hmd p (by simpa [mergeAux] using hp)
  | cons pv rest ih =>
    obtain ⟨k, v⟩ := pv
    intro tm md hpairs hmd p hp
    have hrest : ∀ p ∈ rest, langExcluded p.1 = false → Q p :=
      fun q hq => hpairs q (List.mem_cons_of_mem _ hq)
    cases hL : langExcluded k with
    | true =>
      rw [mergeAux_cons_excl hL] at hp
      exact ih tm md hrest hmd p hp
    | false =>
      cases hTm : lookupStr (baseName k) tm with
      | some ek =>
        rw [mergeAux_cons_upd hL hTm] at hp
        exact ih _ _ hrest
          (updateTags_pres Q (fun k' r' hq => hQ k' r' (tagList v) hq) hmd) p hp
      | none =>
        rw [mergeAux_cons_new hL hTm] at hp
        refine ih _ _ hrest ?_ p hp
        intro q hq
        rcases List.mem_append.1 hq with hq | hq
        · exact hmd q hq
        · rw [List.mem_singleton.1 hq]
          exact hpairs (k, v) (List.mem_cons_self _ _) hL

/-- When no pair's base name collides with an earlier one (or with
`temp_map`), the merge loop appends every surviving pair verbatim. -/
theorem mergeAux_fresh :
    ∀ (pairs : List (String × Record)) (tm : List (String × String))
      (md : List (String × Record)),
      (∀ p ∈ pairs, langExcluded p.1 = false) →
      ((pairs.map fun p => baseName p.1).Nodup) →
      (∀ p ∈ pairs, baseName p.1 ∉ tm.map Prod.fst) →
      mergeAux pairs tm md = md ++ pairs := by
  intro pairs
  induction pairs with
  | nil => intro tm md _ _ _; simp [mergeAux]
  | cons pv rest ih =>
    obtain ⟨k, v⟩ := pv
    intro tm md hlang hnd hdisj
    have hL : langExcluded k = false := hlang (k, v) (List.mem_cons_self _ _)
    have hTm : lookupStr (baseName k) tm = none :=
      lookupStr_eq_none.2 (hdisj (k, v) (List.mem_cons_self _ _))
    rw [mergeAux_cons_new hL hTm]
    rw [List.map_cons, List.nodup_cons] at hnd
    rw [ih ((baseName k, k) :: tm) (md ++ [(k, v)])
      (fun q hq => hlang q (List.mem_cons_of_mem _ hq)) hnd.2 ?_]
    · simp
    · intro q hq
      simp only [List.map_cons, List.mem_cons]
      push_neg
      constructor
      · intro hbad
        exact hnd.1 (hbad ▸ List.mem_map_of_mem _ hq)
      · exact hdisj q (List.mem_cons_of_mem _ hq)

/-! ### Lemmas about the filter stage -/

theorem filterStage_sublist :
    ∀ {m out : List (String × Record)}, filterStage m = some out → out.Sublist m := by
  intro m
  induction m with
  | nil => intro out h; simp [filterStage] at h; simp [← h]
  | cons p rest ih =>
    obtain ⟨k, v⟩ := p
    intro out h
    rw [filterStage] at h
    cases hr : recordPasses k v with
    | none => rw [hr] at h; exact absurd h (by simp)
    | some b =>
      rw [hr] at h
      cases hf : filterStage rest with
      | none => rw [hf] at h; exact absurd h (by simp)
      | some out' =>
        rw [hf] at h
        simp only [Option.some.injEq] at h
        cases b with
        | true =>
          rw [← h]
          simpa using List.Sublist.cons₂ (k, v) (ih hf)
        | false =>
          rw [← h]
          simpa using List.Sublist.cons (k, v) (ih hf)

theorem filterStage_passes :
    ∀ {m out : List (String × Record)}, filterStage m = some out →
      ∀ p ∈ out, recordPasses p.1 p.2 = some true := by
  intro m
  induction m with
  | nil =>
    intro out h
    simp only [filterStage, Option.some.injEq] at h
    rw [← h]
    simp
  | cons p rest ih =>
    obtain ⟨k, v⟩ := p
    intro out h
    rw [filterStage] at h
    cases hr : recordPasses k v with
    | none => rw [hr] at h; exact absurd h (by simp)
    | some b =>
      rw [hr] at h
      cases hf : filterStage rest with
      | none => rw [hf] at h; exact absurd h (by simp)
      | some out' =>
        rw [hf] at h
        simp only [Option.some.injEq] at h
        cases b with
        | true =>
          intro q hq
          rw [← h, if_pos rfl, List.mem_cons] at hq
          rcases hq with hq | hq
          · rw [hq]; exact hr
          · exact ih hf q hq
        | false =>
          intro q hq
          rw [← h] at hq
          simp only [Bool.false_eq_true, if_false] at hq
          exact ih hf q hq

theorem filterStage_all :
    ∀ {m : List (String × Record)},
      (∀ p ∈ m, recordPasses p.1 p.2 = some true) → filterStage m = some m := by
  intro m
  induction m with
  | nil => intro _; rfl
  | cons p rest ih =>
    obtain ⟨k, v⟩ := p
    intro hall
    rw [filterStage, hall (k, v) (List.mem_cons_self _ _),
      ih fun q hq => hall q (List.mem_cons_of_mem _ hq)]
    simp

/-! ### The stable two-way sort is a permutation -/

theorem sortPairs_perm (data : List (String × Record)) :
    (sortPairs data).Perm data :=
  List.filter_append_perm _ data

/-- Association-list lookup is invariant under permutation when the keys
are duplicate-free. -/
theorem lookupStr_perm {α : Type} {l₁ l₂ : List (String × α)}
    (h : l₁.Perm l₂) :
    (l₁.map Prod.fst).Nodup → ∀ k, lookupStr k l₁ = lookupStr k l₂ := by
  induction h with
  | nil => intro _ k; rfl
  | cons x h ih =>
    intro hnd k
    rw [List.map_cons, List.nodup_cons] at hnd
    obtain ⟨x1, x2⟩ := x
    by_cases hk : k = x1 <;> simp [lookupStr, hk, ih hnd.2 k]
  | swap x y l =>
    intro hnd k
    obtain ⟨x1, x2⟩ := x
    obtain ⟨y1, y2⟩ := y
    simp only [List.map_cons, List.nodup_cons, List.mem_cons] at hnd
    have hxy : y1 ≠ x1 := fun hbad => hnd.1 (Or.inl hbad)
    by_cases hk1 : k = y1
    · subst hk1
      simp [lookupStr, hxy]
    · by_cases hk2 : k = x1
      · subst hk2
        simp [lookupStr, hk1, Ne.symm hxy]
      · simp [lookupStr, hk1, hk2]
  | trans h1 h2 ih1 ih2 =>
    intro hnd k
    rw [ih1 hnd k, ih2 (((h1.map Prod.fst).nodup_iff).1 hnd) k]

/-- Each entry of `merged_data` survives a tag update with the same key
and, when it is the updated one, its record replaced by `mergeRec`. -/
theorem updateTags_mem_image {ek : String} {ts : List String} :
    ∀ {md : List (String × Record)} {p : String × Record}, p ∈ md →
      (p.1, if p.1 = ek then mergeRec p.2 ts else p.2) ∈ updateTags md ek ts := by
  intro md
  induction md with
  | nil => intro p hp; simp at hp
  | cons q rest ih =>
    obtain ⟨k1, r1⟩ := q
    intro p hp
    rcases List.mem_cons.1 hp with h | h
    · subst h
      rw [updateTags]
      exact List.mem_cons_self _ _
    · rw [updateTags]
      exact List.mem_cons_of_mem _ (ih h)

/-- Once a record is stored under a key, the rest of the merge loop keeps
an entry under that key whose fields other than `tags` are unchanged. -/
theorem mergeAux_keeps (kZ : String) (e : Option PyVal)
    (rst : List (String × PyVal)) :
    ∀ (pairs : List (String × Record)) (tm : List (String × String))
      (md : List (String × Record)),
      (∃ r', (kZ, r') ∈ md ∧ r'.emotion = e ∧ r'.rest = rst) →
      ∃ v, (kZ, v) ∈ mergeAux pairs tm md ∧ v.emotion = e ∧ v.rest = rst := by
  intro pairs
  induction pairs with
  | nil => intro tm md h; simpa [mergeAux] using h
  | cons pv rest ih =>
    obtain ⟨k0, v0⟩ := pv
    intro tm md h
    obtain ⟨r', hmem, he, hr⟩ := h
    cases hL : langExcluded k0 with
    | true =>
      rw [mergeAux_cons_excl hL]
      exact ih tm md ⟨r', hmem, he, hr⟩
    | false =>
      cases hTm : lookupStr (baseName k0) tm with
      | some ek =>
        rw [mergeAux_cons_upd hL hTm]
        refine ih _ _ ?_
        have himg := @updateTags_mem_image ek (tagList v0) md (kZ, r') hmem
        by_cases hke : kZ = ek
        · exact ⟨mergeRec r' (tagList v0), by simpa [hke] using himg, he, hr⟩
        · exact ⟨r', by simpa [hke] using himg, he, hr⟩
      | none =>
        rw [mergeAux_cons_new hL hTm]
        exact ih _ _ ⟨r', List.mem_append_left _ hmem, he, hr⟩

/-- When no earlier surviving pair carries the marked key's base name, the
marked pair is stored fresh under its own key and its non-tag fields
survive to the loop's output. -/
theorem mergeAux_first_marked (kZ : String) (rZ : Record) :
    ∀ (Q1 Q2 : List (String × Record)) (tm : List (String × String))
      (md : List (String × Record)),
      (∀ q ∈ Q1, langExcluded q.1 = true ∨ baseName q.1 ≠ baseName kZ) →
      baseName kZ ∉ tm.map Prod.fst →
      langExcluded kZ = false →
      ∃ v, (kZ, v) ∈ mergeAux (Q1 ++ (kZ, rZ) :: Q2) tm md ∧
        v.emotion = rZ.emotion ∧ v.rest = rZ.rest := by
  intro Q1
  induction Q1 with
  | nil =>
    intro Q2 tm md _ htm hlZ
    rw [List.nil_append, mergeAux_cons_new hlZ (lookupStr_eq_none.2 htm)]
    exact mergeAux_keeps kZ rZ.emotion rZ.rest Q2 _ _
      ⟨rZ, List.mem_append_right _ (List.mem_cons_self _ _), rfl, rfl⟩
  | cons q Q1' ih =>
    obtain ⟨k0, v0⟩ := q
    intro Q2 tm md hq1 htm hlZ
    have hq1' : ∀ q ∈ Q1', langExcluded q.1 = true ∨ baseName q.1 ≠ baseName kZ :=
      fun q hq => hq1 q (List.mem_cons_of_mem _ hq)
    rw [List.cons_append]
    cases hL : langExcluded k0 with
    | true =>
      rw [mergeAux_cons_excl hL]
      exact ih Q2 tm md hq1' htm hlZ
    | false =>
      have hbase : baseName k0 ≠ baseName kZ := by
        rcases hq1 (k0, v0) (List.mem_cons_self _ _) with h | h
        · rw [hL] at h; exact absurd h (by simp)
        · exact h
      cases hTm : lookupStr (baseName k0) tm with
      | some ek =>
        rw [mergeAux_cons_upd hL hTm]
        exact ih Q2 tm _ hq1' htm hlZ
      | none =>
        rw [mergeAux_cons_new hL hTm]
        refine ih Q2 _ _ hq1' ?_ hlZ
        simp only [List.map_cons, List.mem_cons]
        push_neg
        exact ⟨Ne.symm hbase, htm⟩

/-- Merging a two-record mapping whose records share a base name keeps the
first record's key and non-tag fields and unions the tags. -/
theorem mergeTwo (k1 k2 : String) (r1 r2 : Record)
    (hl1 : langExcluded k1 = false) (hl2 : langExcluded k2 = false)
    (hb : baseName k2 = baseName k1) :
    mergeAux [(k1, r1), (k2, r2)] [] [] = [(k1, mergeRec r1 (tagList r2))] := by
  have h0 : lookupStr (baseName k1) ([] : List (String × String)) = none := rfl
  rw [mergeAux_cons_new hl1 h0]
  have h1 : lookupStr (baseName k2) [(baseName k1, k1)] = some k1 := by
    simp [lookupStr, hb]
  rw [mergeAux_cons_upd hl2 h1]
  simp [mergeAux, updateTags]

/-- C1: after the merge stage (applied to the keys surviving language
exclusion) the merged mapping contains exactly one record per canonical
identity: no two entries share a base name, and every surviving input key's
base name has exactly one representative. -/
theorem merge_completeness (data : List (String × Record)) :
    (((mergeStage data).map fun p => baseName p.1).Nodup) ∧
    ∀ k v, (k, v) ∈ data → langExcluded k = false →
      ∃! p : String × Record,
        p ∈ mergeStage data ∧ baseName p.1 = baseName k := by
  have hnd : ((mergeStage data).map fun p => baseName p.1).Nodup :=
    mergeAux_nodup (sortPairs data) [] [] rfl (by simp)
  refine ⟨hnd, ?_⟩
  intro k v hkv hlang
  have hkv' : (k, v) ∈ sortPairs data := ((sortPairs_perm data).mem_iff).2 hkv
  have hmem : baseName k ∈ (mergeStage data).map fun p => baseName p.1 :=
    mergeAux_covers (sortPairs data) [] [] rfl k v hkv' hlang
  obtain ⟨p, hp, hbase⟩ := List.mem_map.1 hmem
  refine ⟨p, ⟨hp, hbase⟩, ?_⟩
  rintro q ⟨hq, hqbase⟩
  exact nodup_map_inj hnd q hq p hp (by rw [hqbase, hbase])

theorem merge_completeness_witness :
    ∃! p : String × Record,
      p ∈ mergeStage dataEnd2End ∧ baseName p.1 = baseName "A" :=
  (merge_completeness dataEnd2End).2 "A" recEx2
    (List.mem_cons_of_mem _ (List.mem_cons_self _ _)) (by decide)

/-- C2: for every input mapping (keys unique, as in a Python dict)
containing a marked-variant record and an unmarked record that share a
canonical identity, both surviving language exclusion, where the marked
record is the identity's unique surviving marked representative (the
claim's "the marked record"; the source's sort leaves the order of several
equal-priority marked variants unspecified), the merged mapping stores a
record under the marked key whose fields other than `tags` equal the
marked record's fields, and the unmarked record's key does not appear in
the merged mapping. -/
theorem merge_precedence (data : List (String × Record)) (kZ k : String)
    (rZ r : Record)
    (hnd : (data.map Prod.fst).Nodup)
    (hmemZ : (kZ, rZ) ∈ data) (_hmem : (k, r) ∈ data)
    (hZ : endsWithZH kZ = true) (hk : endsWithZH k = false)
    (hb : baseName k = baseName kZ)
    (hlZ : langExcluded kZ = false) (_hl : langExcluded k = false)
    (huniq : ∀ k' r', (k', r') ∈ data → endsWithZH k' = true →
      langExcluded k' = false → baseName k' = baseName kZ → k' = kZ) :
    (∃ v : Record, (kZ, v) ∈ mergeStage data ∧
      v.emotion = rZ.emotion ∧ v.rest = rZ.rest) ∧
    k ∉ (mergeStage data).map Prod.fst := by
  have hndS : ((sortPairs data).map Prod.fst).Nodup :=
    (((sortPairs_perm data).map Prod.fst).nodup_iff).2 hnd
  have hmemF : (kZ, rZ) ∈ data.filter (fun p => endsWithZH p.1) :=
    List.mem_filter.2 ⟨hmemZ, hZ⟩
  obtain ⟨s, t, hsplit⟩ := List.append_of_mem hmemF
  have hsort : sortPairs data =
      s ++ (kZ, rZ) :: (t ++ data.filter (fun p => !endsWithZH p.1)) := by
    rw [sortPairs, hsplit]
    simp [List.append_assoc]
  have hkZnotin : kZ ∉ s.map Prod.fst := by
    rw [hsort, List.map_append, List.map_cons] at hndS
    intro hbad
    exact (List.nodup_append.1 hndS).2.2 hbad (List.mem_cons_self _ _)
  have hq1 : ∀ q ∈ s, langExcluded q.1 = true ∨ baseName q.1 ≠ baseName kZ := by
    intro q hq
    by_cases hle : langExcluded q.1 = true
    · exact Or.inl hle
    · right
      intro hbad
      have hqF : q ∈ data.filter (fun p => endsWithZH p.1) := by
        rw [hsplit]
        exact List.mem_append_left _ hq
      have hqd := List.mem_filter.1 hqF
      have hkq : q.1 = kZ :=
        huniq q.1 q.2 hqd.1 hqd.2 (by simpa using hle) hbad
      exact hkZnotin (hkq ▸ List.mem_map_of_mem Prod.fst hq)
  have hex : ∃ v, (kZ, v) ∈ mergeStage data ∧
      v.emotion = rZ.emotion ∧ v.rest = rZ.rest := by
    rw [mergeStage, hsort]
    exact mergeAux_first_marked kZ rZ s _ [] [] hq1 (by simp) hlZ
  refine ⟨hex, ?_⟩
  obtain ⟨v, hvmem, hve, hvr⟩ := hex
  intro hbad
  obtain ⟨p, hp, hpk⟩ := List.mem_map.1 hbad
  have hndB : ((mergeStage data).map fun p => baseName p.1).Nodup :=
    mergeAux_nodup (sortPairs data) [] [] rfl (by simp)
  have hpe : p = (kZ, v) :=
    nodup_map_inj hndB p hp (kZ, v) hvmem (by rw [hpk]; exact hb)
  have hkkZ : k = kZ := by rw [← hpk, hpe]
  rw [hkkZ, hZ] at hk
  exact absurd hk (by simp)

theorem merge_precedence_witness :
    (∃ v : Record, ("A_ZH", v) ∈ mergeStage dataThree ∧
      v.emotion = recEx1.emotion ∧ v.rest = recEx1.rest) ∧
    "A" ∉ (mergeStage dataThree).map Prod.fst :=
  merge_precedence dataThree "A_ZH" "A" recEx1 recEx2 (by decide)
    (List.mem_cons_of_mem _ (List.mem_cons_self _ _))
    (List.mem_cons_of_mem _ (List.mem_cons_of_mem _ (List.mem_cons_self _ _)))
    (by decide) (by decide) (by decide) (by decide) (by decide)
    (by
      intro k' r' hmem hmark _ _
      rcases List.mem_cons.1 hmem with h | h
      · have hx : k' = "X" := congrArg Prod.fst h
        rw [hx] at hmark
        exact absurd hmark (by decide)
      rcases List.mem_cons.1 h with h | h
      · exact congrArg Prod.fst h
      rcases List.mem_cons.1 h with h | h
      · have hx : k' = "A" := congrArg Prod.fst h
        rw [hx] at hmark
        exact absurd hmark (by decide)
      · simp at h)

/-- C3: for a two-record input mapping whose records share a canonical
identity (both surviving language exclusion), the merged record's `tags`,
viewed as a set, is the union of the two records' tag sets; an absent
`tags` field contributes the empty set (`tagList` reads an absent field
as `[]`). -/
theorem merge_tag_union (k1 k2 : String) (r1 r2 : Record)
    (hb : baseName k1 = baseName k2)
    (hl1 : langExcluded k1 = false) (hl2 : langExcluded k2 = false) :
    ∃ (k : String) (v : Record),
      mergeStage [(k1, r1), (k2, r2)] = [(k, v)] ∧
      ∀ t, t ∈ tagList v ↔ (t ∈ tagList r1 ∨ t ∈ tagList r2) := by
  cases h1 : endsWithZH k1 with
  | true =>
    have hs : sortPairs [(k1, r1), (k2, r2)] = [(k1, r1), (k2, r2)] ∨
        sortPairs [(k1, r1), (k2, r2)] = [(k2, r2), (k1, r1)] := by
      cases h2 : endsWithZH k2 with
      | true => exact Or.inl (by simp [sortPairs, List.filter, h1, h2])
      | false => exact Or.inl (by simp [sortPairs, List.filter, h1, h2])
    rcases hs with hs | hs
    · refine ⟨k1, mergeRec r1 (tagList r2), ?_, ?_⟩
      · rw [mergeStage, hs]; exact mergeTwo k1 k2 r1 r2 hl1 hl2 hb.symm
      · intro t
        simp [mergeRec, tagList, tagUnion]
    · refine ⟨k2, mergeRec r2 (tagList r1), ?_, ?_⟩
      · rw [mergeStage, hs]; exact mergeTwo k2 k1 r2 r1 hl2 hl1 hb
      · intro t
        simp [mergeRec, tagList, tagUnion, or_comm]
  | false =>
    cases h2 : endsWithZH k2 with
    | true =>
      have hs : sortPairs [(k1, r1), (k2, r2)] = [(k2, r2), (k1, r1)] := by
        simp [sortPairs, List.filter, h1, h2]
      refine ⟨k2, mergeRec r2 (tagList r1), ?_, ?_⟩
      · rw [mergeStage, hs]; exact mergeTwo k2 k1 r2 r1 hl2 hl1 hb
      · intro t
        simp [mergeRec, tagList, tagUnion, or_comm]
    | false =>
      have hs : sortPairs [(k1, r1), (k2, r2)] = [(k1, r1), (k2, r2)] := by
        simp [sortPairs, List.filter, h1, h2]
      refine ⟨k1, mergeRec r1 (tagList r2), ?_, ?_⟩
      · rw [mergeStage, hs]; exact mergeTwo k1 k2 r1 r2 hl1 hl2 hb.symm
      · intro t
        simp [mergeRec, tagList, tagUnion]

theorem merge_tag_union_witness :
    ∃ (k : String) (v : Record),
      mergeStage [("B_ZH", recTag1), ("B", recTag2)] = [(k, v)] ∧
      ∀ t, t ∈ tagList v ↔ (t ∈ tagList recTag1 ∨ t ∈ tagList recTag2) :=
  merge_tag_union "B_ZH" "B" recTag1 recTag2 (by decide) (by decide) (by decide)

/-- C4: a record whose `emotion` field is a sequence and which passes the
tag and name blacklists is retained by the filter stage iff the sequence's
length is at least `MIN_EMOTION_COUNT`. -/
theorem filter_threshold (k : String) (v : Record) (xs : List PyVal)
    (he : v.emotion = some (.vlist xs))
    (htag : tagBanned v = false) (hname : nameBanned k = false) :
    filterStage [(k, v)] =
      some (if MIN_EMOTION_COUNT ≤ xs.length then [(k, v)] else []) := by
  have hn : emotionCount v.emotion = some xs.length := by rw [he]; rfl
  by_cases hlen : xs.length < MIN_EMOTION_COUNT
  · simp [filterStage, recordPasses, hn, htag, hname, hlen, Nat.not_le.2 hlen]
  · simp [filterStage, recordPasses, hn, htag, hname, hlen, Nat.le_of_not_lt hlen]

theorem filter_threshold_witness :
    filterStage [("原神-中文-甲", recEmo6)] = some [("原神-中文-甲", recEmo6)] ∧
    filterStage [("原神-中文-乙", recEmo5)] = some [] := by
  constructor
  · have h := filter_threshold "原神-中文-甲" recEmo6 (List.replicate 6 .vnull)
      rfl (by decide) (by decide)
    simpa using h
  · have h := filter_threshold "原神-中文-乙" recEmo5 (List.replicate 5 .vnull)
      rfl (by decide) (by decide)
    simpa [MIN_EMOTION_COUNT] using h

/-- C5 counterexample: the claim says every non-sequence, non-mapping
`emotion` shape coerces to a count of 0 without failing the run, but the
code takes a string's `len` (here 6, so the record is even retained), and
raises a `TypeError` (modelled by `none`) on a number, as well as on a
mapping whose first value has no `len`. -/
theorem emotion_coercion_counterexample :
    emotionCount (some (.vstr "abcdef")) = some 6 ∧
    emotionCount (some (.vint 3)) = none ∧
    emotionCount (some (.vdict [("a", .vint 1)])) = none ∧
    filterStage [("s-x", recStr)] = some [("s-x", recStr)] :=
  ⟨rfl, rfl, rfl, rfl⟩

/-- C5 amended: the coverage count is obtained without failing only for
sized shapes: a sequence or a string yields its length, an empty mapping
yields 0, a non-empty mapping yields the Python `len` of its first value
(failing the run when that value has no `len`), an absent field yields 0,
and a null, boolean or numeric shape fails the run with a `TypeError`. -/
theorem emotion_coercion_behavior :
    (∀ xs, emotionCount (some (.vlist xs)) = some xs.length) ∧
    (emotionCount none = some 0) ∧
    (emotionCount (some (.vdict [])) = some 0) ∧
    (∀ k v kvs, emotionCount (some (.vdict ((k, v) :: kvs))) = pyLen v) ∧
    (∀ s, emotionCount (some (.vstr s)) = some s.length) ∧
    (emotionCount (some .vnull) = none) ∧
    (∀ b, emotionCount (some (.vbool b)) = none) ∧
    (∀ n, emotionCount (some (.vint n)) = none) :=
  ⟨fun _ => rfl, rfl, rfl, fun _ _ _ => rfl, fun _ => rfl, rfl,
   fun _ => rfl, fun _ => rfl⟩

/-- C6: the tag-blacklist criterion fires iff some tag string on the record
contains some banned entry as a substring (containment, not exact match):
a single matching pair suffices, and a record none of whose tags contains
a banned substring passes. -/
theorem tag_blacklist_substring (v : Record) :
    tagBanned v = true ↔
      ∃ tag ∈ tagList v, ∃ b ∈ BANNED_TAGS,
        ∃ s t : List Char, tag.toList = s ++ b.toList ++ t := by
  simp only [tagBanned, List.any_eq_true, pyContains_iff]

/-- C7: the name-blacklist criterion fires iff the derived name part (the
last hyphen-delimited segment of the key, `_ZH` occurrences removed)
exactly equals a blacklisted name; mere substring containment (e.g.
`"NPCish"` vs the banned `"NPC"`) does not fire it, unlike the tag
criterion. -/
theorem name_blacklist_exact :
    (∀ key, nameBanned key = true ↔ namePart key ∈ BANNED_NAMES) ∧
    nameBanned "原神-中文-NPC" = true ∧
    nameBanned "原神-中文-NPCish" = false ∧
    pyContains "NPCish" "NPC" = true := by
  refine ⟨?_, by decide, by decide, by decide⟩
  intro key
  simp only [nameBanned, List.any_eq_true, beq_iff_eq]
  constructor
  · rintro ⟨bn, hbn, hbe⟩
    rw [← hbe]
    exact hbn
  · intro h
    exact ⟨namePart key, h, rfl⟩

/-- C10: the canonical identity (`baseName`) and the derived name part
(`namePart`) delete every `_ZH` occurrence anywhere in the string, while
the merge-ordering priority (`endsWithZH`, used by `sortPairs`) only tests
a trailing `_ZH`; hence two keys differing by an interior `_ZH` are merged
into one record even though neither is ordered as a marked variant. -/
theorem interior_marker_merge :
    baseName "A_ZHB" = baseName "AB" ∧
    endsWithZH "A_ZHB" = false ∧
    endsWithZH "AB" = false ∧
    namePart "X-N_ZHP" = "NP" ∧
    sortPairs dataInterior = dataInterior ∧
    (mergeStage dataInterior).map Prod.fst = ["A_ZHB"] :=
  ⟨by decide, by decide, by decide, by decide, rfl, rfl⟩

/-- C8: the pipeline is idempotent on its own output: re-running it on a
successful output succeeds, returning the output up to the stable two-way
re-sort — a permutation, hence (keys being duplicate-free) the same
key → record mapping, with every record (tags included) unchanged. -/
theorem pipeline_idempotent (data out : List (String × Record))
    (h : pipeline data = some out) :
    pipeline out = some (sortPairs out) ∧
    (sortPairs out).Perm out ∧
    ∀ k, lookupStr k (sortPairs out) = lookupStr k out := by
  have hperm := sortPairs_perm out
  have hfil : filterStage (mergeStage data) = some out := h
  have hsub : out.Sublist (mergeStage data) := filterStage_sublist hfil
  have hndM : ((mergeStage data).map fun p => baseName p.1).Nodup :=
    mergeAux_nodup (sortPairs data) [] [] rfl (by simp)
  have hndOut : (out.map fun p => baseName p.1).Nodup :=
    List.Nodup.sublist (hsub.map _) hndM
  have hlangM : ∀ p ∈ mergeStage data, langExcluded p.1 = false :=
    mergeAux_pres (fun p => langExcluded p.1 = false) (fun _ _ _ hq => hq)
      (sortPairs data) [] [] (fun _ _ hl => hl) (by simp)
  have hlangOut : ∀ p ∈ out, langExcluded p.1 = false :=
    fun p hp => hlangM p (hsub.subset hp)
  have hpassOut : ∀ p ∈ out, recordPasses p.1 p.2 = some true :=
    filterStage_passes hfil
  have hmemS : ∀ p ∈ sortPairs out, p ∈ out := fun p hp => (hperm.mem_iff).1 hp
  have hndS : ((sortPairs out).map fun p => baseName p.1).Nodup :=
    ((hperm.map _).nodup_iff).2 hndOut
  have hmerge2 : mergeStage out = sortPairs out := by
    rw [mergeStage]
    have hfresh := mergeAux_fresh (sortPairs out) [] []
      (fun p hp => hlangOut p (hmemS p hp)) hndS (fun p _ => by simp)
    simpa using hfresh
  have hfil2 : filterStage (sortPairs out) = some (sortPairs out) :=
    filterStage_all (fun p hp => hpassOut p (hmemS p hp))
  refine ⟨?_, hperm, ?_⟩
  · rw [pipeline, hmerge2]
    exact hfil2
  · have hndKeysOut : (out.map Prod.fst).Nodup := by
      apply List.Nodup.of_map baseName
      rw [List.map_map]
      exact hndOut
    have hndKeysS : ((sortPairs out).map Prod.fst).Nodup :=
      ((hperm.map _).nodup_iff).2 hndKeysOut
    exact lookupStr_perm hperm hndKeysS

theorem pipeline_idempotent_witness :
    pipeline outEx = some (sortPairs outEx) ∧
    (sortPairs outEx).Perm outEx ∧
    ∀ k, lookupStr k (sortPairs outEx) = lookupStr k outEx :=
  pipeline_idempotent dataEnd2End outEx rfl

/-- C9: every key of the final output is a key of the input, and the
output record under that key agrees with the input record under the same
key on every field except possibly `tags`; the filter stage itself stores
records verbatim (its output is a sublist of its input). -/
theorem pipeline_source_fidelity :
    (∀ data out, pipeline data = some out →
      ∀ p ∈ out, ∃ v0 : Record, (p.1, v0) ∈ data ∧
        p.2.emotion = v0.emotion ∧ p.2.rest = v0.rest) ∧
    (∀ m out, filterStage m = some out → out.Sublist m) := by
  constructor
  · intro data out h p hp
    have hsub : out.Sublist (mergeStage data) := filterStage_sublist h
    have hQ := mergeAux_pres
      (fun q => ∃ v0 : Record, (q.1, v0) ∈ data ∧
        q.2.emotion = v0.emotion ∧ q.2.rest = v0.rest)
      (fun k r ts hq => by
        obtain ⟨v0, hv0, he, hr⟩ := hq
        exact ⟨v0, hv0, he, hr⟩)
      (sortPairs data) [] []
      (fun q hq _ => ⟨q.2, (sortPairs_perm data).subset hq, rfl, rfl⟩)
      (by simp)
    exact hQ p (hsub.subset hp)
  · intro m out h
    exact filterStage_sublist h

theorem pipeline_source_fidelity_witness :
    ∃ v0 : Record, ("A_ZH", v0) ∈ dataEnd2End ∧
      recMergedEx.emotion = v0.emotion ∧ recMergedEx.rest = v0.rest :=
  pipeline_source_fidelity.1 dataEnd2End outEx rfl ("A_ZH", recMergedEx)
    (List.mem_cons_self _ _)

example : baseName "A_ZHB" = "AB" := by decide
example : namePart "原神-中文-甲_ZH" = "甲" := by decide
example : endsWithZH "A_ZH" = true := by decide
example : langExcluded "a_EN_ZH" = true := by decide
example : pyContains "普通人" "普通" = true := by decide
